import Mathlib

/-!
# distbuild/pkg/build/graph.go: identity, job and command model

A shallow embedding of `graph.go`.  Go strings and byte slices are lists of
bytes (`Fin 256`); the fixed-size array `[sha1.Size]byte` is a list of bytes of
length 20.  The Go standard-library routines the file calls
(`hex.EncodeToString`, `hex.DecodeString`, `filepath.Join`, the builtin `copy`)
are embedded from the standard library, Unix flavour for `path/filepath`.
A method with a pointer receiver returns the receiver's new value next to its
result.
-/

namespace Build

set_option maxRecDepth 100000

/-- A Go `byte`. -/
abbrev Byte := Fin 256

/-- A Go `string` or `[]byte`: a finite sequence of bytes. -/
abbrev GoString := List Byte

/-- Conversion of a Go integer expression back to `byte` (wraps modulo 2^8). -/
def Byte.ofNat (n : Nat) : Byte := ⟨n % 256, Nat.mod_lt _ (by decide)⟩

/-- The bytes of an ASCII literal. -/
def lit (s : String) : GoString := s.toList.map (fun c => Byte.ofNat c.toNat)

/-! ## encoding/hex -/

/-- The constant `hextable = "0123456789abcdef"` of `encoding/hex`. -/
def hextable : GoString :=
  [48, 49, 50, 51, 52, 53, 54, 55, 56, 57, 97, 98, 99, 100, 101, 102]

/-- Indexing `hextable[i]`; every index used by `Encode` is below 16. -/
def hextableAt (i : Nat) : Byte := hextable.getD i 0

/-- The loop of `hex.Encode`, which `hex.EncodeToString` runs over the whole
source: each byte `v` yields `hextable[v>>4]` and `hextable[v&0x0f]`. -/
def EncodeToString : List Byte → GoString
  | [] => []
  | v :: rest =>
    hextableAt (v.val >>> 4) :: hextableAt (v.val &&& 0x0f) :: EncodeToString rest

/-- The errors of `encoding/hex`. -/
inductive HexError where
  | InvalidByteError (b : Byte)
  | ErrLength
  deriving DecidableEq, Repr

/-- The function `fromHexChar` of `encoding/hex` (the content of its
`reverseHexTable`): the value of a hex digit, `none` where the table holds
`0xff`. -/
def fromHexChar (c : Byte) : Option Byte :=
  if 48 ≤ c.val ∧ c.val ≤ 57 then some (Byte.ofNat (c.val - 48))
  else if 97 ≤ c.val ∧ c.val ≤ 102 then some (Byte.ofNat (c.val - 97 + 10))
  else if 65 ≤ c.val ∧ c.val ≤ 70 then some (Byte.ofNat (c.val - 65 + 10))
  else none

/-- The function `hex.Decode`, returning the decoded prefix `dst[:n]` and the
error.  The loop consumes the source two bytes at a time; a trailing single
byte is reported as an invalid byte when it is no hex digit and as `ErrLength`
otherwise. -/
def Decode : List Byte → List Byte × Option HexError
  | [] => ([], none)
  | [p] =>
    match fromHexChar p with
    | none => ([], some (HexError.InvalidByteError p))
    | some _ => ([], some HexError.ErrLength)
  | p :: q :: rest =>
    match fromHexChar p with
    | none => ([], some (HexError.InvalidByteError p))
    | some a =>
      match fromHexChar q with
      | none => ([], some (HexError.InvalidByteError q))
      | some b =>
        let r := Decode rest
        (Byte.ofNat ((a.val <<< 4) % 256 ||| b.val) :: r.1, r.2)

/-- The function `hex.DecodeString`: `Decode` over the bytes of the string. -/
def DecodeString (s : GoString) : List Byte × Option HexError := Decode s

/-! ## The builtin `copy` -/

/-- The builtin `copy(dst, src)`: the first `min (len dst) (len src)` elements of
`dst` are overwritten by those of `src`. -/
def copy (dst src : List Byte) : List Byte :=
  src.take dst.length ++ dst.drop src.length

/-! ## ID -/

/-- The constant `sha1.Size`. -/
def sha1Size : Nat := 20

/-- The type `ID [sha1.Size]byte`. -/
abbrev ID := { l : List Byte // l.length = sha1Size }

/-- The errors `UnmarshalText` returns: the one of `hex.DecodeString`, or
`fmt.Errorf("invalid id size: %q", b)`. -/
inductive UnmarshalError where
  | hex (e : HexError)
  | invalidIdSize (b : GoString)
  deriving DecidableEq, Repr

/-- The method `ID.String`. -/
def ID.String (id : ID) : GoString := EncodeToString id.val

/-- The method `ID.MarshalText`: the bytes and the (always nil) error. -/
def ID.MarshalText (id : ID) : GoString × Option UnmarshalError :=
  (EncodeToString id.val, none)

/-- The method `(*ID).UnmarshalText`: the receiver after the call and the
returned error (`none` is nil). -/
def ID.UnmarshalText (id : ID) (b : GoString) : ID × Option UnmarshalError :=
  match DecodeString b with
  | (_, some err) => (id, some (UnmarshalError.hex err))
  | (raw, none) =>
    if raw.length ≠ id.val.length then
      (id, some (UnmarshalError.invalidIdSize b))
    else
      (⟨copy id.val raw, by
        have h := id.property
        simp only [copy, List.length_append, List.length_take, List.length_drop]
        omega⟩, none)

/-! ## path/filepath (Unix) and strings.Join -/

/-- The constant `filepath.Separator` on Unix, the byte `/`. -/
def Separator : Byte := 47

/-- The byte `.`. -/
def dot : Byte := 46

/-- The function `os.IsPathSeparator` on Unix. -/
def IsPathSeparator (c : Byte) : Bool := c == Separator

/-- The function `strings.Join`: the elements with `sep` between neighbours. -/
def stringsJoin (elems : List GoString) (sep : GoString) : GoString :=
  sep.intercalate elems

/-- The inner loop of the `..` case of `filepath.Clean`, entered after the first
`out.w--`.  The output buffer is kept reversed here: `rout` is `buf[:w]` back to
front and `d` is `buf[w]`, the byte `out.index(out.w)` reads.  While
`out.w > dotdot` and `buf[w]` is no separator, `w` is decremented. -/
def cleanBacktrack (dotdot : Nat) : List Byte → Byte → List Byte
  | [], _ => []
  | c :: r, d =>
    if (c :: r).length > dotdot && !IsPathSeparator d then cleanBacktrack dotdot r c
    else c :: r

/-- The main loop `for r < n` of `filepath.Clean`.  `rest` is `path[r:]`, `out`
is the written part `buf[:w]` of the lazy buffer, `dotdot` is the index where
`..` must stop.  Every turn consumes at least one byte of `rest`, so the first
argument, started at `len(path)`, never runs out before `rest` does. -/
def cleanLoop (rooted : Bool) : Nat → GoString → GoString → Nat → GoString
  | 0, _, out, _ => out
  | _ + 1, [], out, _ => out
  | fuel + 1, c :: rest, out, dotdot =>
    if IsPathSeparator c then
      -- empty path element
      cleanLoop rooted fuel rest out dotdot
    else if c = dot ∧ (rest = [] ∨ IsPathSeparator (rest.headD 0)) then
      -- . element
      cleanLoop rooted fuel rest out dotdot
    else if c = dot ∧ rest.head? = some dot ∧
        (rest.tail = [] ∨ IsPathSeparator (rest.tail.headD 0)) then
      -- .. element: remove to last separator
      if out.length > dotdot then
        match out.reverse with
        | [] => cleanLoop rooted fuel rest.tail out dotdot
        | d :: rout =>
          cleanLoop rooted fuel rest.tail (cleanBacktrack dotdot rout d).reverse dotdot
      else if !rooted then
        let out1 := if out.length > 0 then out ++ [Separator] else out
        let out2 := out1 ++ [dot, dot]
        cleanLoop rooted fuel rest.tail out2 out2.length
      else
        cleanLoop rooted fuel rest.tail out dotdot
    else
      -- real path element: add slash if needed, copy element
      let out1 :=
        if (rooted && out.length != 1) || (!rooted && out.length != 0) then
          out ++ [Separator]
        else out
      cleanLoop rooted fuel
        ((c :: rest).dropWhile (fun x => !IsPathSeparator x))
        (out1 ++ (c :: rest).takeWhile (fun x => !IsPathSeparator x)) dotdot

/-- The function `filepath.Clean` on Unix, where the volume name is empty and
`FromSlash` is the identity. -/
def Clean (path : GoString) : GoString :=
  if path = [] then [dot]
  else
    let rooted := IsPathSeparator (path.headD 0)
    let out :=
      if rooted then cleanLoop rooted path.length path.tail [Separator] 1
      else cleanLoop rooted path.length path [] 0
    if out.length = 0 then [dot] else out

/-- The function `filepath.Join` on Unix: the elements from the first non-empty
one on, joined by the separator and cleaned; the empty string when there is
none. -/
def Join : List GoString → GoString
  | [] => []
  | e :: rest =>
    if e ≠ [] then Clean (stringsJoin (e :: rest) [Separator]) else Join rest

/-- The method `ID.Path`. -/
def ID.Path (id : ID) : GoString :=
  Join [EncodeToString (id.val.take 1), EncodeToString id.val]

/-! ## Job, Cmd, Graph -/

/-- The struct `Cmd`. -/
structure Cmd where
  Exec : List GoString
  Environ : List GoString
  WorkingDirectory : GoString
  CatTemplate : GoString
  CatOutput : GoString
  deriving DecidableEq

/-- The struct `Job`. -/
structure Job where
  ID : Build.ID
  Name : GoString
  Inputs : List GoString
  Deps : List Build.ID
  Cmds : List Cmd
  deriving DecidableEq

/-- The struct `Graph`; the map `SourceFiles` is its lookup function. -/
structure Graph where
  SourceFiles : ID → Option GoString
  Jobs : List Job

/-- The method `Cmd.Render`, whose body is `panic("implement me")`: the result
is the panic value on every input (`Except.error`), never a `Cmd`. -/
def Cmd.Render (_cmd : Cmd) (_outputDir _sourceDir : GoString)
    (_deps : ID → Option GoString) : Except String Cmd :=
  Except.error "implement me"

/-! ## Vocabulary of the properties -/

/-- The characters `0-9a-fA-F`. -/
def isHexChar (c : Byte) : Prop :=
  (48 ≤ c.val ∧ c.val ≤ 57) ∨ (97 ≤ c.val ∧ c.val ≤ 102) ∨ (65 ≤ c.val ∧ c.val ≤ 70)

instance (c : Byte) : Decidable (isHexChar c) := by
  unfold isHexChar; infer_instance

/-- The characters `0-9a-f`. -/
def isLowerHexChar (c : Byte) : Prop :=
  (48 ≤ c.val ∧ c.val ≤ 57) ∨ (97 ≤ c.val ∧ c.val ≤ 102)

instance (c : Byte) : Decidable (isLowerHexChar c) := by
  unfold isLowerHexChar; infer_instance

/-- The lowercase hex digit of a nibble: `'0' + n` below ten, `'a' + (n - 10)`
from ten on. -/
def lowerHexDigit (n : Nat) : Byte :=
  if n < 10 then Byte.ofNat (48 + n) else Byte.ofNat (97 + (n - 10))

/-- The path components of a Unix path: the pieces between separators. -/
def pathComponents (p : GoString) : List GoString := p.splitOn Separator

/-- The ID whose 20 bytes are zero. -/
def zeroID : ID := ⟨List.replicate 20 0, rfl⟩

/-- The text `f374b81d81f641c8c3d5d5468081ef83b2c7dae9`. -/
def sampleText : GoString := lit "f374b81d81f641c8c3d5d5468081ef83b2c7dae9"

/-- The ID `f374b81d81f641c8c3d5d5468081ef83b2c7dae9` of the comment on `Cmd`. -/
def sampleID : ID :=
  ⟨[0xf3, 0x74, 0xb8, 0x1d, 0x81, 0xf6, 0x41, 0xc8, 0xc3, 0xd5,
    0xd5, 0x46, 0x80, 0x81, 0xef, 0x83, 0xb2, 0xc7, 0xda, 0xe9], rfl⟩

/-- The text `g374b81d81f641c8c3d5d5468081ef83b2c7dae9`: 40 characters, the
first of them no hex digit. -/
def badText : GoString := lit "g374b81d81f641c8c3d5d5468081ef83b2c7dae9"

/-- The spec's example of a `cat` command, `CatTemplate` being
`hello {{SOURCE_DIR}}`. -/
def catHello : Cmd :=
  { Exec := [], Environ := [], WorkingDirectory := [],
    CatTemplate := lit "hello \x7b\x7bSOURCE_DIR\x7d\x7d",
    CatOutput := lit "out.txt" }

/-- An `exec` command without any placeholder. -/
def plainCmd : Cmd :=
  { Exec := [lit "ls", lit "-l"], Environ := [lit "LANG=C"], WorkingDirectory := lit "/tmp",
    CatTemplate := [], CatOutput := [] }

/-- The empty `deps` map. -/
def noDeps : ID → Option GoString := fun _ => none

/-- A job whose ID is the zero ID. -/
def jobA : Job :=
  { ID := zeroID, Name := lit "build a", Inputs := [lit "a.go"], Deps := [sampleID],
    Cmds := [plainCmd] }

/-- The job `jobA` with another ID and nothing else changed. -/
def jobB : Job := { jobA with ID := sampleID }

/-- The characters `A-F`, the uppercase hex digits. -/
def isUpperHexChar (c : Byte) : Prop := 65 ≤ c.val ∧ c.val ≤ 70

instance (c : Byte) : Decidable (isUpperHexChar c) := by
  unfold isUpperHexChar; infer_instance

/-- A character with `A-F` lowered to `a-f` and every other byte kept. -/
def lowerAF (c : Byte) : Byte := if isUpperHexChar c then Byte.ofNat (c.val + 32) else c

/-- The text `F374B81D81F641C8C3D5D5468081EF83B2C7DAE9`, the uppercase spelling of
`sampleText`. -/
def upperText : GoString := lit "F374B81D81F641C8C3D5D5468081EF83B2C7DAE9"

/-- The text `f374b81d81f641c8c3d5d5468081ef83b2c7dae` of 39 hex digits. -/
def oddText : GoString := lit "f374b81d81f641c8c3d5d5468081ef83b2c7dae"

/-- The zero value `Cmd{}`. -/
def emptyCmd : Cmd :=
  { Exec := [], Environ := [], WorkingDirectory := [], CatTemplate := [], CatOutput := [] }

/-! ## Facts about single bytes -/

theorem copy_length (dst src : List Byte) : (copy dst src).length = dst.length := by
  simp only [copy, List.length_append, List.length_take, List.length_drop]
  omega

theorem byte_roundtrip : ∀ v : Byte,
    fromHexChar (hextableAt (v.val >>> 4)) = some (Byte.ofNat (v.val / 16)) ∧
    fromHexChar (hextableAt (v.val &&& 0x0f)) = some (Byte.ofNat (v.val % 16)) ∧
    Byte.ofNat ((((Byte.ofNat (v.val / 16)).val <<< 4) % 256) ||| (Byte.ofNat (v.val % 16)).val) = v := by
  decide

theorem fromHexChar_eq_none_iff (c : Byte) : fromHexChar c = none ↔ ¬ isHexChar c := by
  unfold fromHexChar isHexChar
  split_ifs <;> simp_all

theorem fromHexChar_isSome_iff (c : Byte) : (∃ a, fromHexChar c = some a) ↔ isHexChar c := by
  rw [← not_iff_not, ← fromHexChar_eq_none_iff]
  cases fromHexChar c <;> simp

/-! ## Facts about `EncodeToString` and `Decode` -/

theorem EncodeToString_length (l : List Byte) :
    (EncodeToString l).length = 2 * l.length := by
  induction l with
  | nil => rfl
  | cons v rest ih => simp only [EncodeToString, List.length_cons, ih]; omega

theorem Decode_EncodeToString (l : List Byte) : Decode (EncodeToString l) = (l, none) := by
  induction l with
  | nil => rfl
  | cons v rest ih =>
    obtain ⟨h1, h2, h3⟩ := byte_roundtrip v
    simp only [EncodeToString, Decode, h1, h2, ih, h3]

/-- A successful `Decode` yields one byte for every two input bytes. -/
theorem Decode_length : ∀ (b : List Byte), (Decode b).2 = none →
    2 * (Decode b).1.length = b.length
  | [] => fun _ => rfl
  | [p] => by
    intro h
    simp only [Decode] at h
    cases hp : fromHexChar p <;> simp [hp] at h
  | p :: q :: rest => by
    intro h
    simp only [Decode] at h ⊢
    cases hp : fromHexChar p with
    | none => simp [hp] at h
    | some a =>
      cases hq : fromHexChar q with
      | none => simp [hp, hq] at h
      | some c =>
        simp only [hp, hq] at h ⊢
        have ih := Decode_length rest h
        simp only [List.length_cons]
        omega

/-- The inputs `Decode` accepts: an even number of bytes, all of them hex digits. -/
theorem Decode_ok_iff : ∀ (b : List Byte),
    (Decode b).2 = none ↔ (b.length % 2 = 0 ∧ ∀ c ∈ b, isHexChar c)
  | [] => by simp [Decode]
  | [p] => by
    simp only [Decode]
    cases hp : fromHexChar p <;> simp
  | p :: q :: rest => by
    have ih := Decode_ok_iff rest
    simp only [Decode]
    cases hp : fromHexChar p with
    | none =>
      have := (fromHexChar_eq_none_iff p).1 hp
      simp [this]
    | some a =>
      have hp2 := (fromHexChar_isSome_iff p).1 ⟨a, hp⟩
      cases hq : fromHexChar q with
      | none =>
        have := (fromHexChar_eq_none_iff q).1 hq
        simp [this]
      | some c =>
        have hq2 := (fromHexChar_isSome_iff q).1 ⟨c, hq⟩
        simp only [ih, List.length_cons, List.mem_cons, forall_eq_or_imp, hp2, hq2, true_and]
        constructor
        · rintro ⟨h1, h2⟩; exact ⟨by omega, h2⟩
        · rintro ⟨h1, h2⟩; exact ⟨by omega, h2⟩

theorem copy_full (dst src : List Byte) (h : src.length = dst.length) : copy dst src = src := by
  simp [copy, ← h]

theorem byte_digits : ∀ v : Byte,
    hextableAt (v.val >>> 4) = lowerHexDigit (v.val / 16) ∧
    hextableAt (v.val &&& 0x0f) = lowerHexDigit (v.val % 16) ∧
    isLowerHexChar (hextableAt (v.val >>> 4)) ∧
    isLowerHexChar (hextableAt (v.val &&& 0x0f)) := by
  decide

theorem EncodeToString_lower (l : List Byte) : ∀ c ∈ EncodeToString l, isLowerHexChar c := by
  induction l with
  | nil => intro c hc; simp [EncodeToString] at hc
  | cons v rest ih =>
    obtain ⟨_, _, h3, h4⟩ := byte_digits v
    intro c hc
    simp only [EncodeToString, List.mem_cons] at hc
    rcases hc with rfl | rfl | hc
    · exact h3
    · exact h4
    · exact ih c hc

theorem EncodeToString_getElem? (l : List Byte) : ∀ i : Nat,
    (EncodeToString l)[2 * i]? = l[i]?.map (fun v => lowerHexDigit (v.val / 16)) ∧
    (EncodeToString l)[2 * i + 1]? = l[i]?.map (fun v => lowerHexDigit (v.val % 16)) := by
  induction l with
  | nil => intro i; simp [EncodeToString]
  | cons v rest ih =>
    obtain ⟨h1, h2, _, _⟩ := byte_digits v
    intro i
    cases i with
    | zero => simp [EncodeToString, h1, h2]
    | succ j =>
      have e1 : 2 * (j + 1) = 2 * j + 1 + 1 := by omega
      have e2 : 2 * (j + 1) + 1 = 2 * j + 1 + 1 + 1 := by omega
      rw [e2, e1]
      simp only [EncodeToString, List.getElem?_cons_succ]
      exact ih j

theorem EncodeToString_injective (l m : List Byte)
    (h : EncodeToString l = EncodeToString m) : l = m := by
  have h1 := Decode_EncodeToString l
  rw [h, Decode_EncodeToString m] at h1
  exact (Prod.mk.inj h1).1.symm

theorem EncodeToString_take_one (l : List Byte) :
    EncodeToString (l.take 1) = (EncodeToString l).take 2 := by
  cases l with
  | nil => rfl
  | cons v rest => simp [EncodeToString]

/-! ## Facts about `filepath.Clean` -/

theorem lower_not_separator : ∀ c : Byte, isLowerHexChar c →
    IsPathSeparator c = false ∧ c ≠ dot := by
  decide

theorem cleanLoop_nil (rooted : Bool) (fuel : Nat) (out : GoString) (dotdot : Nat) :
    cleanLoop rooted fuel [] out dotdot = out := by
  cases fuel <;> rfl

/-- The first argument of `cleanLoop` only bounds the number of turns: any two
values that are at least the number of bytes left give the same result, so the
loop started at `len(path)` always runs to the end of the path. -/
theorem cleanLoop_fuel (rooted : Bool) : ∀ (fuel1 fuel2 : Nat) (rest out : GoString)
    (dotdot : Nat), rest.length ≤ fuel1 → rest.length ≤ fuel2 →
    cleanLoop rooted fuel1 rest out dotdot = cleanLoop rooted fuel2 rest out dotdot := by
  intro fuel1
  induction fuel1 with
  | zero =>
    intro fuel2 rest out dotdot h1 _
    have : rest = [] := List.length_eq_zero.1 (Nat.le_zero.1 h1)
    subst this
    rw [cleanLoop_nil, cleanLoop_nil]
  | succ f1 ih =>
    intro fuel2 rest out dotdot h1 h2
    cases rest with
    | nil => rw [cleanLoop_nil, cleanLoop_nil]
    | cons c r =>
      cases fuel2 with
      | zero => simp at h2
      | succ f2 =>
        simp only [List.length_cons, Nat.add_le_add_iff_right] at h1 h2
        have ht1 : r.tail.length ≤ f1 := by simp only [List.length_tail]; omega
        have ht2 : r.tail.length ≤ f2 := by simp only [List.length_tail]; omega
        simp only [cleanLoop]
        by_cases hc : IsPathSeparator c = true
        · simp only [hc, if_true]
          exact ih f2 r out dotdot h1 h2
        · have hd := (List.dropWhile_suffix (fun x => !IsPathSeparator x) (l := r)).length_le
          have hdc : (c :: r).dropWhile (fun x => !IsPathSeparator x) =
              r.dropWhile (fun x => !IsPathSeparator x) := by
            simp [List.dropWhile_cons, hc]
          rw [hdc]
          have hc2 : IsPathSeparator c = false := by simpa using hc
          simp only [hc2, Bool.false_eq_true, if_false]
          split_ifs
          all_goals first
            | exact ih f2 _ _ _ h1 h2
            | exact ih f2 _ _ _ ht1 ht2
            | exact ih f2 _ _ _ (by omega) (by omega)
            | (split <;> exact ih f2 _ _ _ ht1 ht2)

theorem takeWhile_component (a rest : GoString)
    (ha : ∀ c ∈ a, IsPathSeparator c = false) :
    (a ++ Separator :: rest).takeWhile (fun x => !IsPathSeparator x) = a := by
  induction a with
  | nil => simp [List.takeWhile, IsPathSeparator]
  | cons c a ih =>
    have hc := ha c (List.mem_cons_self _ _)
    simp only [List.cons_append, List.takeWhile_cons, hc, Bool.not_false, if_true]
    rw [ih (fun x hx => ha x (List.mem_cons_of_mem _ hx))]

theorem dropWhile_component (a rest : GoString)
    (ha : ∀ c ∈ a, IsPathSeparator c = false) :
    (a ++ Separator :: rest).dropWhile (fun x => !IsPathSeparator x) = Separator :: rest := by
  induction a with
  | nil => simp [List.dropWhile, IsPathSeparator]
  | cons c a ih =>
    have hc := ha c (List.mem_cons_self _ _)
    simp only [List.cons_append, List.dropWhile_cons, hc, Bool.not_false, if_true]
    rw [ih (fun x hx => ha x (List.mem_cons_of_mem _ hx))]

theorem takeWhile_last_component (a : GoString)
    (ha : ∀ c ∈ a, IsPathSeparator c = false) :
    a.takeWhile (fun x => !IsPathSeparator x) = a := by
  induction a with
  | nil => rfl
  | cons c a ih =>
    have hc := ha c (List.mem_cons_self _ _)
    simp only [List.takeWhile_cons, hc, Bool.not_false, if_true]
    rw [ih (fun x hx => ha x (List.mem_cons_of_mem _ hx))]

theorem dropWhile_last_component (a : GoString)
    (ha : ∀ c ∈ a, IsPathSeparator c = false) :
    a.dropWhile (fun x => !IsPathSeparator x) = [] := by
  induction a with
  | nil => rfl
  | cons c a ih =>
    have hc := ha c (List.mem_cons_self _ _)
    simp only [List.dropWhile_cons, hc, Bool.not_false, if_true]
    rw [ih (fun x hx => ha x (List.mem_cons_of_mem _ hx))]

/-- `Clean` leaves a relative path of two non-empty components of lowercase hex
digits as it is. -/
theorem Clean_two_components (a b : GoString) (ha : a ≠ []) (hb : b ≠ [])
    (hla : ∀ c ∈ a, isLowerHexChar c) (hlb : ∀ c ∈ b, isLowerHexChar c) :
    Clean (a ++ Separator :: b) = a ++ Separator :: b := by
  have hsa : ∀ c ∈ a, IsPathSeparator c = false := fun c hc => (lower_not_separator c (hla c hc)).1
  have hsb : ∀ c ∈ b, IsPathSeparator c = false := fun c hc => (lower_not_separator c (hlb c hc)).1
  obtain ⟨a0, a1, rfl⟩ := List.exists_cons_of_ne_nil ha
  obtain ⟨b0, b1, rfl⟩ := List.exists_cons_of_ne_nil hb
  obtain ⟨ha0, ha0d⟩ := lower_not_separator a0 (hla a0 (List.mem_cons_self _ _))
  obtain ⟨hb0, hb0d⟩ := lower_not_separator b0 (hlb b0 (List.mem_cons_self _ _))
  have hlen : ((a0 :: a1) ++ Separator :: b0 :: b1).length = (a1.length + b1.length) + 1 + 1 + 1 := by
    simp only [List.length_append, List.length_cons]; omega
  have hsep : IsPathSeparator Separator = true := by decide
  have t1 := takeWhile_component (a0 :: a1) (b0 :: b1) hsa
  have d1 := dropWhile_component (a0 :: a1) (b0 :: b1) hsa
  have t2 := takeWhile_last_component (b0 :: b1) hsb
  have d2 := dropWhile_last_component (b0 :: b1) hsb
  unfold Clean
  rw [hlen]
  simp only [List.cons_append] at t1 d1 ⊢
  simp only [List.headD_cons, ha0, reduceCtorEq, if_false, Bool.false_eq_true, cleanLoop,
    ha0d, false_and, t1, d1, hsep, if_true, hb0, hb0d, t2, d2, cleanLoop_nil]
  simp

/-! ## Facts about `UnmarshalText` -/

/-- The three ways `UnmarshalText` ends. -/
theorem UnmarshalText_cases (r : ID) (b : GoString) :
    (∃ e, (Decode b).2 = some e ∧ r.UnmarshalText b = (r, some (UnmarshalError.hex e))) ∨
    ((Decode b).2 = none ∧ (Decode b).1.length ≠ 20 ∧
      r.UnmarshalText b = (r, some (UnmarshalError.invalidIdSize b))) ∨
    ((Decode b).2 = none ∧ (Decode b).1.length = 20 ∧
      (r.UnmarshalText b).1.val = (Decode b).1 ∧ (r.UnmarshalText b).2 = none) := by
  have hr : r.val.length = 20 := r.property
  unfold ID.UnmarshalText DecodeString
  rcases hd : Decode b with ⟨raw, _ | e⟩
  · by_cases hlen : raw.length = 20
    · right; right
      have h2 : ¬ raw.length ≠ r.val.length := by simp [hr, hlen]
      dsimp only
      rw [if_neg h2]
      exact ⟨rfl, hlen, copy_full _ _ (hlen.trans hr.symm), rfl⟩
    · right; left
      have h2 : raw.length ≠ r.val.length := by rw [hr]; exact hlen
      dsimp only
      rw [if_pos h2]
      exact ⟨rfl, hlen, rfl⟩
  · left
    exact ⟨e, rfl, rfl⟩

/-! ## Facts about `Path` -/

/-- The layout of `Path()`: the first two characters of `String()`, one
separator, `String()`. -/
theorem Path_eq (id : ID) : id.Path = id.String.take 2 ++ Separator :: id.String := by
  have hlen : (EncodeToString id.val).length = 40 := by
    rw [EncodeToString_length, id.property]; rfl
  have hlow := EncodeToString_lower id.val
  have ha : (EncodeToString id.val).take 2 ≠ [] := by
    intro h
    have := congrArg List.length h
    simp only [List.length_take, hlen, List.length_nil] at this
    omega
  have hb : EncodeToString id.val ≠ [] := by
    intro h
    rw [h] at hlen
    simp at hlen
  unfold ID.Path ID.String Join
  rw [EncodeToString_take_one, if_pos ha]
  have hj : stringsJoin [(EncodeToString id.val).take 2, EncodeToString id.val] [Separator] =
      (EncodeToString id.val).take 2 ++ Separator :: EncodeToString id.val := by
    simp [stringsJoin, List.intercalate]
  rw [hj]
  exact Clean_two_components _ _ ha hb (fun c hc => hlow c (List.mem_of_mem_take hc)) hlow

theorem Separator_not_lower (l : GoString) (h : ∀ c ∈ l, isLowerHexChar c) :
    Separator ∉ l := by
  intro hm
  exact absurd (lower_not_separator _ (h _ hm)).1 (by decide)

/-! ## The claims -/

/-- C1: for every ID `id` and every receiver value `r`, `MarshalText` returns a
nil error, and `UnmarshalText` on `r` with the bytes `id.MarshalText()` returned
gives a nil error and leaves the receiver equal to `id`. -/
theorem C1_unmarshal_marshal_roundtrip (id r : ID) :
    id.MarshalText.2 = none ∧ r.UnmarshalText id.MarshalText.1 = (id, none) := by
  refine ⟨rfl, ?_⟩
  have hd : Decode id.MarshalText.1 = (id.val, none) := Decode_EncodeToString id.val
  rcases UnmarshalText_cases r id.MarshalText.1 with ⟨e, h1, _⟩ | ⟨_, h2, _⟩ | ⟨_, _, h3, h4⟩
  · rw [hd] at h1; cases h1
  · rw [hd] at h2; exact absurd id.property h2
  · rw [hd] at h3
    exact Prod.ext (Subtype.ext h3) h4

/-- C2: an input that is valid hex (an even number of characters, all in
`0-9a-fA-F`) whose length is not 40 decodes without error to a number of bytes
other than 20, and `UnmarshalText` returns the `invalid id size` error and
leaves the receiver as it was: nothing is truncated or padded into an ID. -/
theorem C2_wrong_length_is_error (r : ID) (b : GoString)
    (heven : b.length % 2 = 0) (hhex : ∀ c ∈ b, isHexChar c) (hlen : b.length ≠ 40) :
    (DecodeString b).2 = none ∧ (DecodeString b).1.length ≠ 20 ∧
    r.UnmarshalText b = (r, some (UnmarshalError.invalidIdSize b)) := by
  have hok : (Decode b).2 = none := (Decode_ok_iff b).2 ⟨heven, hhex⟩
  have hl := Decode_length b hok
  have hne : (Decode b).1.length ≠ 20 := by omega
  refine ⟨hok, hne, ?_⟩
  rcases UnmarshalText_cases r b with ⟨e, h1, _⟩ | ⟨_, _, h⟩ | ⟨_, h2, _⟩
  · rw [hok] at h1; cases h1
  · exact h
  · exact absurd h2 hne

/-- Witness of C2 at the four-character input `f374`. -/
theorem C2_wrong_length_witness :
    (DecodeString (lit "f374")).2 = none ∧ (DecodeString (lit "f374")).1.length ≠ 20 ∧
    zeroID.UnmarshalText (lit "f374") =
      (zeroID, some (UnmarshalError.invalidIdSize (lit "f374"))) :=
  C2_wrong_length_is_error zeroID (lit "f374") (by decide) (by decide) (by decide)

/-- C3: an input that is not valid hex (some character outside `0-9a-fA-F`, or
an odd number of characters) makes `UnmarshalText` return the error of
`hex.DecodeString`, whatever the length, the receiver staying as it was. -/
theorem C3_invalid_hex_is_error (r : ID) (b : GoString)
    (h : (∃ c ∈ b, ¬ isHexChar c) ∨ b.length % 2 = 1) :
    ∃ e, r.UnmarshalText b = (r, some (UnmarshalError.hex e)) := by
  have hbad : (Decode b).2 ≠ none := by
    intro hok
    obtain ⟨heven, hhex⟩ := (Decode_ok_iff b).1 hok
    rcases h with ⟨c, hc, hn⟩ | hodd
    · exact hn (hhex c hc)
    · omega
  rcases UnmarshalText_cases r b with ⟨e, _, h1⟩ | ⟨h2, _⟩ | ⟨h3, _⟩
  · exact ⟨e, h1⟩
  · exact absurd h2 hbad
  · exact absurd h3 hbad

/-- Witness of C3 at a 40-character input whose first character is `g`. -/
theorem C3_invalid_hex_witness :
    badText.length = 40 ∧
    ∃ e, sampleID.UnmarshalText badText = (sampleID, some (UnmarshalError.hex e)) :=
  ⟨by decide,
   C3_invalid_hex_is_error sampleID badText (Or.inl ⟨103, by decide, by decide⟩)⟩

/-- C4: for every ID, `String()` has exactly 40 characters, each in `0-9a-f`,
and for `i` in 0..19 the characters `2i` and `2i+1` are the lowercase hex digits
of the high and the low nibble of byte `i`. -/
theorem C4_String_format (id : ID) (i : Nat) (hi : i < 20) :
    id.String.length = 40 ∧ (∀ c ∈ id.String, isLowerHexChar c) ∧
    ∃ v, id.val[i]? = some v ∧
      id.String[2 * i]? = some (lowerHexDigit (v.val / 16)) ∧
      id.String[2 * i + 1]? = some (lowerHexDigit (v.val % 16)) := by
  have hlen : id.val.length = 20 := id.property
  refine ⟨?_, EncodeToString_lower id.val, ?_⟩
  · simp only [ID.String, EncodeToString_length, hlen]
  · have hi2 : i < id.val.length := by omega
    refine ⟨id.val[i], List.getElem?_eq_getElem hi2, ?_⟩
    have h := EncodeToString_getElem? id.val i
    simpa only [ID.String, List.getElem?_eq_getElem hi2, Option.map_some'] using h

/-- Witness of C4 at the ID `f374b81d81f641c8c3d5d5468081ef83b2c7dae9` and its
last byte. -/
theorem C4_String_format_witness :
    sampleID.String.length = 40 ∧ (∀ c ∈ sampleID.String, isLowerHexChar c) ∧
    ∃ v, sampleID.val[19]? = some v ∧
      sampleID.String[2 * 19]? = some (lowerHexDigit (v.val / 16)) ∧
      sampleID.String[2 * 19 + 1]? = some (lowerHexDigit (v.val % 16)) :=
  C4_String_format sampleID 19 (by decide)

/-- C5: for every ID, `Path()` is the first 2 characters of `String()` (the hex
of the first byte), one path separator, and the whole of `String()`; it holds
exactly one separator, its path components are these two strings, its length is
43, and `Clean` returns the joined string as it is. -/
theorem C5_Path_layout (id : ID) :
    id.Path = id.String.take 2 ++ Separator :: id.String ∧
    id.String.take 2 = EncodeToString (id.val.take 1) ∧
    (id.String.take 2).length = 2 ∧ id.String.length = 40 ∧
    id.Path.count Separator = 1 ∧
    pathComponents id.Path = [id.String.take 2, id.String] ∧
    id.Path.length = 43 ∧
    Clean (stringsJoin [id.String.take 2, id.String] [Separator]) =
      stringsJoin [id.String.take 2, id.String] [Separator] := by
  have hlen : id.String.length = 40 := by
    simp only [ID.String, EncodeToString_length, id.property]; rfl
  have hlow : ∀ c ∈ id.String, isLowerHexChar c := EncodeToString_lower id.val
  have hlow2 : ∀ c ∈ id.String.take 2, isLowerHexChar c :=
    fun c hc => hlow c (List.mem_of_mem_take hc)
  have hj : stringsJoin [id.String.take 2, id.String] [Separator] =
      id.String.take 2 ++ Separator :: id.String := by
    simp [stringsJoin, List.intercalate]
  have hp := Path_eq id
  have h2 : (id.String.take 2).length = 2 := by
    simp only [List.length_take, hlen]; rfl
  refine ⟨hp, (EncodeToString_take_one id.val).symm, h2, hlen, ?_, ?_, ?_, ?_⟩
  · rw [hp, List.count_append, List.count_cons_self,
      List.count_eq_zero.2 (Separator_not_lower _ hlow2),
      List.count_eq_zero.2 (Separator_not_lower _ hlow)]
  · rw [hp, ← hj]
    unfold pathComponents stringsJoin
    apply List.splitOn_intercalate
    · intro l hl
      simp only [List.mem_cons, List.mem_singleton, List.not_mem_nil, or_false] at hl
      rcases hl with rfl | rfl
      · exact Separator_not_lower _ hlow2
      · exact Separator_not_lower _ hlow
    · simp
  · rw [hp, List.length_append, List.length_cons, h2, hlen]
  · rw [hj]
    refine Clean_two_components _ _ ?_ ?_ hlow2 hlow
    · intro h
      rw [h] at h2
      simp at h2
    · intro h
      rw [h] at hlen
      simp at hlen

/-- C6: on the spec's example, the command with `CatTemplate`
`hello {{SOURCE_DIR}}` rendered with `sourceDir` `/src`, `Render` panics with
`implement me`; it does not return the command whose `CatTemplate` is
`hello /src`. -/
theorem C6_Render_example_panics :
    catHello.Render (lit "/out") (lit "/src") noDeps = Except.error "implement me" ∧
    catHello.Render (lit "/out") (lit "/src") noDeps ≠
      Except.ok { catHello with CatTemplate := lit "hello /src" } :=
  ⟨rfl, fun h => by cases h⟩

/-- C7: on a command none of whose fields holds a placeholder, `Render` panics
with `implement me`; it does not return the command unchanged. -/
theorem C7_Render_plain_panics :
    plainCmd.Render (lit "/out") (lit "/src") noDeps = Except.error "implement me" ∧
    plainCmd.Render (lit "/out") (lit "/src") noDeps ≠ Except.ok plainCmd :=
  ⟨rfl, fun h => by cases h⟩

/-- C8, as stated, fails: `jobA` and `jobB` have the same `Inputs`, `Cmds`,
`Deps` (and `Name`) and different `ID` fields; the struct `Job` lets the field
`ID` be set freely. -/
theorem C8_same_content_different_ID :
    jobA.Inputs = jobB.Inputs ∧ jobA.Cmds = jobB.Cmds ∧ jobA.Deps = jobB.Deps ∧
    jobA.Name = jobB.Name ∧ jobA.ID ≠ jobB.ID := by
  decide

/-- C8, amended: the struct `Job` stores `ID` as a field of its own, and neither
`Job` nor `Graph` ties it to `Inputs`, `Cmds` and `Deps`.  For every job `j`
and every ID `x` there is a job with the `Name`, `Inputs`, `Deps` and `Cmds` of
`j` and the ID `x`; every job has a twin of identical `Inputs`, `Cmds`, `Deps`
and `Name` with a different ID, and the two may be the `Jobs` of one `Graph`.
What does hold of `Name`: the job that differs from `j` in `Name` only has the
`ID`, `Inputs`, `Deps` and `Cmds` of `j`. -/
theorem C8_ID_is_a_free_field (j : Job) (x : ID) (n : GoString) :
    (∃ k : Job, k.ID = x ∧ k.Name = j.Name ∧ k.Inputs = j.Inputs ∧ k.Deps = j.Deps ∧
      k.Cmds = j.Cmds) ∧
    (∃ (k : Job) (g : Graph), k.Inputs = j.Inputs ∧ k.Cmds = j.Cmds ∧ k.Deps = j.Deps ∧
      k.Name = j.Name ∧ k.ID ≠ j.ID ∧ g.Jobs = [j, k]) ∧
    (∃ k : Job, k.Name = n ∧ k.ID = j.ID ∧ k.Inputs = j.Inputs ∧ k.Deps = j.Deps ∧
      k.Cmds = j.Cmds ∧ (n ≠ j.Name → k ≠ j)) := by
  refine ⟨⟨{ j with ID := x }, rfl, rfl, rfl, rfl, rfl⟩, ?_,
    ⟨{ j with Name := n }, rfl, rfl, rfl, rfl, rfl, fun hn hk => hn ?_⟩⟩
  · by_cases hz : j.ID = zeroID
    · refine ⟨{ j with ID := sampleID }, ⟨noDeps, [j, { j with ID := sampleID }]⟩,
        rfl, rfl, rfl, rfl, ?_, rfl⟩
      intro he
      have h2 : sampleID = zeroID := he.trans hz
      exact absurd h2 (by decide)
    · exact ⟨{ j with ID := zeroID }, ⟨noDeps, [j, { j with ID := zeroID }]⟩,
        rfl, rfl, rfl, rfl, fun he => hz he.symm, rfl⟩
  · exact congrArg Job.Name hk

/-- C9: for all IDs `a` and `b`, `a.String() == b.String()` exactly when
`a == b`, and `a.Path() == b.Path()` exactly when `a == b`. -/
theorem C9_String_Path_injective (a b : ID) :
    (a.String = b.String ↔ a = b) ∧ (a.Path = b.Path ↔ a = b) := by
  have hs : a.String = b.String → a = b :=
    fun h => Subtype.ext (EncodeToString_injective a.val b.val h)
  refine ⟨⟨hs, fun h => by rw [h]⟩, ⟨fun h => ?_, fun h => by rw [h]⟩⟩
  rw [Path_eq a, Path_eq b] at h
  have hla : a.String.length = 40 := by
    simp only [ID.String, EncodeToString_length, a.property]; rfl
  have hlb : b.String.length = 40 := by
    simp only [ID.String, EncodeToString_length, b.property]; rfl
  have hl : (a.String.take 2).length = (b.String.take 2).length := by
    simp only [List.length_take, hla, hlb]
  have h2 := (List.append_inj h hl).2
  exact hs (List.cons.inj h2).2

/-- C10: `UnmarshalText` returns nil exactly on the inputs of 40 characters all
in `0-9a-fA-F`; when it does, the receiver becomes the 20 decoded bytes, the
same for every previous value of the receiver. -/
theorem C10_acceptance_set (r r' : ID) (b : GoString) :
    ((r.UnmarshalText b).2 = none ↔ (b.length = 40 ∧ ∀ c ∈ b, isHexChar c)) ∧
    ((r.UnmarshalText b).2 = none →
      (r.UnmarshalText b).1.val = (DecodeString b).1 ∧
      (r.UnmarshalText b).1 = (r'.UnmarshalText b).1) := by
  have key : ∀ x : ID, (x.UnmarshalText b).2 = none →
      (Decode b).2 = none ∧ (Decode b).1.length = 20 ∧ (x.UnmarshalText b).1.val = (Decode b).1 := by
    intro x hx
    rcases UnmarshalText_cases x b with ⟨e, _, h1⟩ | ⟨_, _, h2⟩ | ⟨h3, h4, h5, _⟩
    · rw [h1] at hx; cases hx
    · rw [h2] at hx; cases hx
    · exact ⟨h3, h4, h5⟩
  have back : ∀ x : ID, (Decode b).2 = none → (Decode b).1.length = 20 →
      (x.UnmarshalText b).2 = none ∧ (x.UnmarshalText b).1.val = (Decode b).1 := by
    intro x hok hlen
    rcases UnmarshalText_cases x b with ⟨e, h1, _⟩ | ⟨_, h2, _⟩ | ⟨_, _, h5, h6⟩
    · rw [hok] at h1; cases h1
    · exact absurd hlen h2
    · exact ⟨h6, h5⟩
  refine ⟨⟨fun h => ?_, fun h => ?_⟩, fun h => ?_⟩
  · obtain ⟨hok, hlen, _⟩ := key r h
    have hl := Decode_length b hok
    exact ⟨by omega, ((Decode_ok_iff b).1 hok).2⟩
  · have hok : (Decode b).2 = none := (Decode_ok_iff b).2 ⟨by omega, h.2⟩
    have hl := Decode_length b hok
    exact (back r hok (by omega)).1
  · obtain ⟨hok, hlen, hv⟩ := key r h
    exact ⟨hv, Subtype.ext (hv.trans (back r' hok hlen).2.symm)⟩

/-- Witness of C10 at the text `f374b81d81f641c8c3d5d5468081ef83b2c7dae9`, with
two different receivers. -/
theorem C10_acceptance_set_witness :
    (zeroID.UnmarshalText sampleText).2 = none ∧
    (zeroID.UnmarshalText sampleText).1.val = (DecodeString sampleText).1 ∧
    (zeroID.UnmarshalText sampleText).1 = (sampleID.UnmarshalText sampleText).1 :=
  have ok : (zeroID.UnmarshalText sampleText).2 = none :=
    (C10_acceptance_set zeroID sampleID sampleText).1.2 ⟨by decide, by decide⟩
  ⟨ok, (C10_acceptance_set zeroID sampleID sampleText).2 ok⟩

/-! ## Facts about letter case -/

theorem fromHexChar_digit_aux : ∀ p : Byte,
    fromHexChar p = none ∨
    (((fromHexChar p).getD 0).val < 16 ∧ hextableAt ((fromHexChar p).getD 0).val = lowerAF p) := by
  decide

theorem fromHexChar_digit (p a : Byte) (h : fromHexChar p = some a) :
    a.val < 16 ∧ hextableAt a.val = lowerAF p := by
  rcases fromHexChar_digit_aux p with hn | hd
  · rw [hn] at h; cases h
  · rw [h] at hd; exact hd

theorem fromHexChar_lowerAF : ∀ p : Byte, fromHexChar (lowerAF p) = fromHexChar p := by
  decide

theorem lowerAF_eq_self_iff : ∀ p : Byte, lowerAF p = p ↔ ¬ isUpperHexChar p := by
  decide

theorem nibbles_of_byte : ∀ a b : Fin 16,
    (Byte.ofNat ((a.val <<< 4) % 256 ||| b.val)).val >>> 4 = a.val ∧
    (Byte.ofNat ((a.val <<< 4) % 256 ||| b.val)).val &&& 0x0f = b.val := by
  decide

/-- Encoding what `Decode` accepted gives the input back with `A-F` lowered. -/
theorem EncodeToString_Decode : ∀ (s : List Byte), (Decode s).2 = none →
    EncodeToString (Decode s).1 = s.map lowerAF
  | [] => fun _ => rfl
  | [p] => by
    intro h
    simp only [Decode] at h
    cases hp : fromHexChar p <;> simp [hp] at h
  | p :: q :: rest => by
    intro h
    simp only [Decode] at h ⊢
    cases hp : fromHexChar p with
    | none => simp [hp] at h
    | some a =>
      cases hq : fromHexChar q with
      | none => simp [hp, hq] at h
      | some c =>
        have dp := fromHexChar_digit p a hp
        have dq := fromHexChar_digit q c hq
        simp only [hp, hq] at h ⊢
        have ih := EncodeToString_Decode rest h
        obtain ⟨n1, n2⟩ := nibbles_of_byte ⟨a.val, dp.1⟩ ⟨c.val, dq.1⟩
        simp only at n1 n2
        simp only [EncodeToString, List.map_cons, n1, n2, dp.2, dq.2, ih]

theorem Decode_map_lowerAF : ∀ (s : List Byte), Decode (s.map lowerAF) = Decode s
  | [] => rfl
  | [p] => by
    simp only [List.map_cons, List.map_nil, Decode, fromHexChar_lowerAF]
    cases hp : fromHexChar p with
    | none =>
      have hn : ¬ isUpperHexChar p := fun hu =>
        (fromHexChar_eq_none_iff p).1 hp (Or.inr (Or.inr hu))
      simp [(lowerAF_eq_self_iff p).2 hn]
    | some a => rfl
  | p :: q :: rest => by
    have ih := Decode_map_lowerAF rest
    simp only [List.map_cons, Decode, fromHexChar_lowerAF, ih]
    cases hp : fromHexChar p with
    | none =>
      have hn : ¬ isUpperHexChar p := fun hu =>
        (fromHexChar_eq_none_iff p).1 hp (Or.inr (Or.inr hu))
      simp [(lowerAF_eq_self_iff p).2 hn]
    | some a =>
      cases hq : fromHexChar q with
      | none =>
        have hn : ¬ isUpperHexChar q := fun hu =>
          (fromHexChar_eq_none_iff q).1 hq (Or.inr (Or.inr hu))
        simp [(lowerAF_eq_self_iff q).2 hn]
      | some c => rfl

theorem map_lowerAF_eq_self_iff (s : List Byte) :
    s.map lowerAF = s ↔ ∀ c ∈ s, ¬ isUpperHexChar c := by
  induction s with
  | nil => simp
  | cons c rest ih =>
    simp only [List.map_cons, List.cons.injEq, ih, lowerAF_eq_self_iff, List.mem_cons,
      forall_eq_or_imp]

/-- `UnmarshalText` sees its input only through `Decode`. -/
theorem UnmarshalText_congr (r : ID) (s t : GoString) (h : Decode s = Decode t)
    (hok : (r.UnmarshalText s).2 = none) : r.UnmarshalText t = r.UnmarshalText s := by
  unfold ID.UnmarshalText DecodeString at hok ⊢
  rw [h] at hok ⊢
  rcases hd : Decode t with ⟨raw, _ | e⟩
  · rw [hd] at hok
    dsimp only at hok ⊢
    by_cases hlen : raw.length ≠ r.val.length
    · rw [if_pos hlen] at hok
      cases hok
    · rw [if_neg hlen, if_neg hlen]
  · rfl

/-- The path components of `Path()`. -/
theorem pathComponents_Path (id : ID) :
    pathComponents id.Path = [id.String.take 2, id.String] := by
  have hlow : ∀ c ∈ id.String, isLowerHexChar c := EncodeToString_lower id.val
  have hj : id.String.take 2 ++ Separator :: id.String =
      [Separator].intercalate [id.String.take 2, id.String] := by
    simp [List.intercalate]
  rw [Path_eq, hj]
  unfold pathComponents
  apply List.splitOn_intercalate
  · intro l hl
    simp only [List.mem_cons, List.mem_singleton, List.not_mem_nil, or_false] at hl
    rcases hl with rfl | rfl
    · exact Separator_not_lower _ (fun c hc => hlow c (List.mem_of_mem_take hc))
    · exact Separator_not_lower _ hlow
  · simp

/-! ## The claims, continued -/

/-- C11: whenever `UnmarshalText` returns an error (invalid hex, odd length, or
a decoded length other than 20), the receiver after the call equals the receiver
before it. -/
theorem C11_error_leaves_receiver (r : ID) (b : GoString)
    (h : (r.UnmarshalText b).2 ≠ none) : (r.UnmarshalText b).1 = r := by
  rcases UnmarshalText_cases r b with ⟨e, _, h1⟩ | ⟨_, _, h2⟩ | ⟨_, _, _, h3⟩
  · rw [h1]
  · rw [h2]
  · exact absurd h3 h

/-- Witness of C11 at a receiver that is not zero, with an input holding a
character that is no hex digit, an input of odd length, and a valid hex input
of 4 characters. -/
theorem C11_error_leaves_receiver_witness :
    (sampleID.UnmarshalText badText).1 = sampleID ∧
    (sampleID.UnmarshalText oddText).1 = sampleID ∧
    (sampleID.UnmarshalText (lit "f374")).1 = sampleID :=
  ⟨C11_error_leaves_receiver sampleID badText (by decide),
   C11_error_leaves_receiver sampleID oddText (by decide),
   C11_error_leaves_receiver sampleID (lit "f374") (by decide)⟩

/-- C12: for an input `s` that `UnmarshalText` accepts, `String()` and
`MarshalText()` of the resulting ID are `s` with `A-F` lowered to `a-f`; they
give `s` back exactly when `s` holds no uppercase digit; an input `s'` that
differs from `s` in letter case only is accepted too and parses to the same ID,
whatever the receiver; and the accepted input `upperText` is not given back. -/
theorem C12_case_insensitive (r r' : ID) (s s' : GoString)
    (h : (r.UnmarshalText s).2 = none) :
    (r.UnmarshalText s).1.String = s.map lowerAF ∧
    (r.UnmarshalText s).1.MarshalText = (s.map lowerAF, none) ∧
    ((r.UnmarshalText s).1.MarshalText.1 = s ↔ ∀ c ∈ s, ¬ isUpperHexChar c) ∧
    (s'.map lowerAF = s.map lowerAF →
      (r'.UnmarshalText s').2 = none ∧ (r'.UnmarshalText s').1 = (r.UnmarshalText s).1) ∧
    ((zeroID.UnmarshalText upperText).2 = none ∧
      (zeroID.UnmarshalText upperText).1.MarshalText.1 ≠ upperText) := by
  have hdec : (Decode s).2 = none ∧ (Decode s).1.length = 20 ∧
      (r.UnmarshalText s).1.val = (Decode s).1 := by
    rcases UnmarshalText_cases r s with ⟨e, _, h1⟩ | ⟨_, _, h2⟩ | ⟨h3, h4, h5, _⟩
    · rw [h1] at h; cases h
    · rw [h2] at h; cases h
    · exact ⟨h3, h4, h5⟩
  obtain ⟨hok, hlen, hval⟩ := hdec
  have hstr : (r.UnmarshalText s).1.String = s.map lowerAF := by
    unfold ID.String
    rw [hval]
    exact EncodeToString_Decode s hok
  have hstr2 : EncodeToString (r.UnmarshalText s).1.val = s.map lowerAF := hstr
  refine ⟨hstr, ?_, ?_, ?_, ?_⟩
  · unfold ID.MarshalText
    rw [hstr2]
  · unfold ID.MarshalText
    dsimp only
    rw [hstr2]
    exact map_lowerAF_eq_self_iff s
  · intro hcase
    have hd : Decode s = Decode s' := by
      rw [← Decode_map_lowerAF s, ← hcase, Decode_map_lowerAF s']
    have hok2 : (r'.UnmarshalText s).2 = none ∧ (r'.UnmarshalText s).1.val = (Decode s).1 := by
      rcases UnmarshalText_cases r' s with ⟨e, h1, _⟩ | ⟨_, h2, _⟩ | ⟨_, _, h5, h6⟩
      · rw [hok] at h1; cases h1
      · exact absurd hlen h2
      · exact ⟨h6, h5⟩
    have hc := UnmarshalText_congr r' s s' hd hok2.1
    rw [hc]
    exact ⟨hok2.1, Subtype.ext (hok2.2.trans hval.symm)⟩
  · decide

/-- Witness of C12: `upperText` is accepted, prints as `sampleText`, and
`sampleText`, which differs from it in letter case only, parses to the same
ID with another receiver. -/
theorem C12_case_insensitive_witness :
    (zeroID.UnmarshalText upperText).2 = none ∧
    (zeroID.UnmarshalText upperText).1.String = sampleText ∧
    (sampleID.UnmarshalText sampleText).2 = none ∧
    (sampleID.UnmarshalText sampleText).1 = (zeroID.UnmarshalText upperText).1 :=
  have hw := C12_case_insensitive zeroID sampleID upperText sampleText (by decide)
  ⟨by decide, hw.1.trans (by decide), (hw.2.2.2.1 (by decide)).1, (hw.2.2.2.1 (by decide)).2⟩

/-- C13: for every ID, `MarshalText()` returns a nil error and the bytes of
`String()`, and the last path component of `Path()` is `String()`. -/
theorem C13_encoders_agree (id : ID) :
    id.MarshalText = (id.String, none) ∧
    (pathComponents id.Path).getLast? = some id.String := by
  refine ⟨rfl, ?_⟩
  rw [pathComponents_Path]
  rfl

/-- C14: on every input `Render` panics with `implement me`; it returns a `Cmd`
on none, the zero `Cmd{}` with empty directories and no deps included. -/
theorem C14_Render_always_panics (cmd : Cmd) (outputDir sourceDir : GoString)
    (deps : ID → Option GoString) :
    cmd.Render outputDir sourceDir deps = Except.error "implement me" ∧
    (¬ ∃ c, cmd.Render outputDir sourceDir deps = Except.ok c) ∧
    emptyCmd.Render [] [] noDeps = Except.error "implement me" :=
  ⟨rfl, (fun hex => hex.elim (fun _ hc => by cases hc)), rfl⟩

end Build
